import Mathlib

/-!
Verification of `ss-graph-rs` (`src/graph.rs`).

A shallow embedding of the generic graph library: `Graph<T>` holds a
directedness flag and an adjacency list (`HashMap<T, HashSet<T>>` in the
source, modelled as an association list of nodup neighbour lists), with
edge insertion and two depth-first path enumerators (`find_all_paths`,
`find_paths_with_max_steps`).

Modelling conventions:
* `HashMap<T, HashSet<T>>` becomes `List (T × List T)`; the `WF` predicate
  records the invariants every value reachable in Rust satisfies (distinct
  keys, duplicate-free neighbour sets).  Hash iteration order is arbitrary
  in Rust; the model fixes one concrete order, and all path-enumeration
  theorems are stated about element counts, which are order-insensitive.
* The recursive helpers take a fuel argument so the recursion is
  structural; the public wrappers pass `(allNodes g).length + 1` fuel,
  which is proved sufficient (`remaining_lt_fuel` together with the count
  characterisations, which hold for every sufficient fuel).
* The Rust helpers mutate `visited`/`path` and restore them on exit
  (push/mark before the recursive call, pop/unmark after); the functional
  rendering therefore passes `visited` and `path` down unchanged to each
  sibling iteration and returns the produced paths, which callers append
  in iteration order, exactly as the Rust `paths` accumulator receives
  them.
-/

namespace SSGraph

variable {T : Type}

/-- `Graph<T>`: directedness flag plus adjacency list
(`HashMap<T, HashSet<T>>` modelled as an association list). -/
structure Graph (T : Type) where
  is_directed : Bool
  adjacency_list : List (T × List T)
deriving Repr

/-- `Graph::new`: `is_directed.unwrap_or(false)`, empty adjacency list. -/
def Graph.new (is_directed : Option Bool) : Graph T :=
  ⟨is_directed.getD false, []⟩

/-- `HashSet::insert`: add an element unless already present. -/
def hsInsert [DecidableEq T] (s : List T) (y : T) : List T :=
  if y ∈ s then s else y :: s

/-- `self.adjacency_list.entry(x).or_insert(HashSet::new()).insert(y)`:
update the entry for key `x` (inserting `y` into its neighbour set),
creating the entry if absent. -/
def alInsert [DecidableEq T] : List (T × List T) → T → T → List (T × List T)
  | [], x, y => [(x, [y])]
  | (k, s) :: rest, x, y =>
    if k = x then (k, hsInsert s y) :: rest else (k, s) :: alInsert rest x y

/-- `Graph::add_edge`: inserts `y` into `x`'s neighbour set and, when the
graph is undirected, also `x` into `y`'s. -/
def Graph.add_edge [DecidableEq T] (g : Graph T) (x y : T) : Graph T :=
  ⟨g.is_directed,
    if g.is_directed then alInsert g.adjacency_list x y
    else alInsert (alInsert g.adjacency_list x y) y x⟩

/-- `HashMap::get` on an association list. -/
def lookupAL [DecidableEq T] (al : List (T × List T)) (x : T) : Option (List T) :=
  (al.find? (fun p => decide (p.1 = x))).map Prod.snd

/-- `self.adjacency_list.get(&x)`. -/
def Graph.getNeighbors [DecidableEq T] (g : Graph T) (x : T) : Option (List T) :=
  lookupAL g.adjacency_list x

/-- Edge test on a bare association list. -/
def elB [DecidableEq T] (al : List (T × List T)) (a b : T) : Bool :=
  match lookupAL al a with
  | some ns => decide (b ∈ ns)
  | none => false

/-- `y` is a member of `x`'s neighbour set. -/
def Graph.edgeB [DecidableEq T] (g : Graph T) (x y : T) : Bool :=
  match g.getNeighbors x with
  | some ns => decide (y ∈ ns)
  | none => false

/-- `x` has an adjacency entry (appears as a key). -/
def Graph.hasKey [DecidableEq T] (g : Graph T) (x : T) : Bool :=
  (g.getNeighbors x).isSome

/-- All node keys occurring in the adjacency mapping, as keys or as
neighbour-set members (with multiplicity; only membership matters). -/
def Graph.allNodes (g : Graph T) : List T :=
  g.adjacency_list.flatMap (fun p => p.1 :: p.2)

/-- The invariants of `HashMap<T, HashSet<T>>`: distinct keys and
duplicate-free neighbour sets.  Every graph reachable through the Rust API
satisfies them. -/
def Graph.WF (g : Graph T) : Prop :=
  (g.adjacency_list.map Prod.fst).Nodup ∧ ∀ p ∈ g.adjacency_list, p.2.Nodup

instance [DecidableEq T] (g : Graph T) : Decidable g.WF := by
  unfold Graph.WF; infer_instance

/-- A sequence of `add_edge` calls. -/
def Graph.add_edges [DecidableEq T] (g : Graph T) (es : List (T × T)) : Graph T :=
  es.foldl (fun g p => g.add_edge p.1 p.2) g

/-- `Graph::find_all_paths_helper`, with structural fuel.  Returns the
paths pushed onto the `paths` accumulator by this call, in order. -/
def Graph.find_all_paths_helper [DecidableEq T] (g : Graph T) :
    Nat → T → T → List T → List T → List (List T)
  | 0, _, _, _, _ => []
  | fuel + 1, start, end_, visited, path =>
    if start = end_ then [path]
    else
      match g.getNeighbors start with
      | none => []
      | some neighbors =>
        neighbors.flatMap (fun n =>
          if n ∈ visited then []
          else g.find_all_paths_helper fuel n end_ (n :: visited) (path ++ [n]))

/-- `Graph::find_all_paths`: seeds `visited = {start}`, `path = [start]`
and runs the helper (fuel `|allNodes| + 1` never runs out: the visited set
bounds the recursion depth). -/
def Graph.find_all_paths [DecidableEq T] (g : Graph T) (start end_ : T) : List (List T) :=
  g.find_all_paths_helper (g.allNodes.length + 1) start end_ [start] [start]

/-- `Graph::find_paths_with_max_steps_helper`, with structural fuel. -/
def Graph.find_paths_with_max_steps_helper [DecidableEq T] (g : Graph T) :
    Nat → T → T → Nat → List T → List T → List (List T)
  | 0, _, _, _, _, _ => []
  | fuel + 1, start, end_, max_steps, visited, path =>
    if start = end_ then [path]
    else if max_steps ≤ path.length then []
    else
      match g.getNeighbors start with
      | none => []
      | some neighbors =>
        neighbors.flatMap (fun n =>
          if n ∈ visited then []
          else g.find_paths_with_max_steps_helper fuel n end_ max_steps
            (n :: visited) (path ++ [n]))

/-- `Graph::find_paths_with_max_steps`. -/
def Graph.find_paths_with_max_steps [DecidableEq T] (g : Graph T)
    (start end_ : T) (max_steps : Nat) : List (List T) :=
  g.find_paths_with_max_steps_helper (g.allNodes.length + 1) start end_ max_steps
    [start] [start]

/-- Consecutive elements are recorded edges. -/
def Graph.chainB [DecidableEq T] (g : Graph T) : List T → Bool
  | [] => true
  | [_] => true
  | a :: b :: rest => g.edgeB a b && g.chainB (b :: rest)

/-- A simple path from `s` to `e`: nonempty, starts at `s`, ends at `e`,
consecutive pairs joined by recorded edges, all nodes distinct. -/
def Graph.isSimplePath [DecidableEq T] (g : Graph T) (s e : T) (p : List T) : Bool :=
  decide (p.head? = some s) && decide (p.getLast? = some e) &&
    g.chainB p && decide p.Nodup

/-- The undirected chain 1 — 2 — 3 — 4 from the reference tests. -/
def chainGraph : Graph Nat :=
  (((Graph.new (some false)).add_edge 1 2).add_edge 2 3).add_edge 3 4

/-- Number of graph nodes not yet visited; the depth-first recursion
strictly decreases it, which is why the fuel `|allNodes| + 1` suffices. -/
def Graph.remaining [DecidableEq T] (g : Graph T) (visited : List T) : Nat :=
  (g.allNodes.filter (fun x => decide (x ∉ visited))).length

/-- `sfx g e visited cur q` holds exactly when, from state
`(cur, visited)`, the search emits the continuation `q`: it mirrors the
recursion of `find_all_paths_helper` one emitted node at a time. -/
def Graph.sfx [DecidableEq T] (g : Graph T) (e : T) : List T → T → List T → Bool
  | _, cur, [] => decide (cur = e)
  | visited, cur, n :: q =>
    decide (cur ≠ e) && g.edgeB cur n && !(decide (n ∈ visited)) &&
      g.sfx e (n :: visited) n q

/-- Bounded variant: `plen` is the length of the accumulated path before
`q` starts; the guard `plen < k` mirrors `path.len() >= max_steps`. -/
def Graph.sfxK [DecidableEq T] (g : Graph T) (e : T) (k : Nat) :
    List T → T → Nat → List T → Bool
  | _, cur, _, [] => decide (cur = e)
  | visited, cur, plen, n :: q =>
    decide (cur ≠ e) && decide (plen < k) && g.edgeB cur n &&
      !(decide (n ∈ visited)) && g.sfxK e k (n :: visited) n (plen + 1) q

/-! ## List counting utilities -/

theorem length_filter_le_of_imp {p q : T → Bool}
    (h : ∀ x, q x = true → p x = true) :
    ∀ l : List T, (l.filter q).length ≤ (l.filter p).length := by
  intro l
  induction l with
  | nil => simp
  | cons b l ih =>
    by_cases hq : q b = true
    · rw [List.filter_cons_of_pos hq, List.filter_cons_of_pos (h b hq)]
      simpa using ih
    · rw [List.filter_cons_of_neg hq]
      by_cases hp : p b = true
      · rw [List.filter_cons_of_pos hp]
        exact Nat.le_succ_of_le ih
      · rw [List.filter_cons_of_neg hp]
        exact ih

theorem length_filter_lt_of_mem {p q : T → Bool} {l : List T} {a : T}
    (h : ∀ x, q x = true → p x = true) (ha : a ∈ l)
    (hpa : p a = true) (hqa : q a = false) :
    (l.filter q).length < (l.filter p).length := by
  induction l with
  | nil => cases ha
  | cons b l ih =>
    rcases List.mem_cons.mp ha with rfl | hal
    · rw [List.filter_cons_of_pos hpa, List.filter_cons_of_neg (by simp [hqa])]
      exact Nat.lt_succ_of_le (length_filter_le_of_imp h l)
    · by_cases hq : q b = true
      · rw [List.filter_cons_of_pos hq, List.filter_cons_of_pos (h b hq)]
        simpa using ih hal
      · rw [List.filter_cons_of_neg hq]
        by_cases hp : p b = true
        · rw [List.filter_cons_of_pos hp]
          exact Nat.lt_succ_of_lt (ih hal)
        · rw [List.filter_cons_of_neg hp]
          exact ih hal

theorem count_flatMap_zero {α β : Type} [BEq β]
    {ns : List α} {B : α → List β} {r : β}
    (h : ∀ n ∈ ns, (B n).count r = 0) : (ns.flatMap B).count r = 0 := by
  induction ns with
  | nil => simp
  | cons n ns ih =>
    rw [List.flatMap_cons, List.count_append, h n (List.mem_cons_self n ns),
      ih (fun m hm => h m (List.mem_cons_of_mem n hm))]

theorem count_flatMap_single {α β : Type} [DecidableEq α] [BEq β]
    {ns : List α} {B : α → List β} {r : β} {n0 : α} {c : Nat}
    (hnd : ns.Nodup)
    (hB : ∀ n ∈ ns, (B n).count r = if n = n0 then c else 0) :
    (ns.flatMap B).count r = if n0 ∈ ns then c else 0 := by
  induction ns with
  | nil => simp
  | cons n ns ih =>
    rw [List.flatMap_cons, List.count_append,
      hB n (List.mem_cons_self n ns),
      ih (List.nodup_cons.mp hnd).2 (fun m hm => hB m (List.mem_cons_of_mem n hm))]
    by_cases hn : n = n0
    · subst hn
      have hnot : n ∉ ns := (List.nodup_cons.mp hnd).1
      simp [hnot]
    · have hn' : ¬n0 = n := fun h => hn h.symm
      simp only [if_neg hn, Nat.zero_add, List.mem_cons]
      by_cases hmem : n0 ∈ ns
      · simp [hmem]
      · simp [hmem, hn']

/-! ## Fuel sufficiency: the measure `remaining` -/

theorem Graph.getNeighbors_sound [DecidableEq T] {g : Graph T} {x : T} {ns : List T}
    (h : g.getNeighbors x = some ns) : (x, ns) ∈ g.adjacency_list := by
  unfold Graph.getNeighbors lookupAL at h
  rcases hf : g.adjacency_list.find? (fun p => decide (p.1 = x)) with _ | p
  · rw [hf] at h; simp at h
  · rw [hf] at h
    have h2 : p.2 = ns := by simpa using h
    have hp := List.find?_some hf
    have hmem := List.mem_of_find?_eq_some hf
    simp only [decide_eq_true_eq] at hp
    have hpn : p = (x, ns) := by
      rcases p with ⟨a, b⟩
      simp only at hp h2
      rw [hp, h2]
    rwa [hpn] at hmem

theorem Graph.key_mem_allNodes [DecidableEq T] {g : Graph T} {x : T} {ns : List T}
    (h : g.getNeighbors x = some ns) : x ∈ g.allNodes := by
  have := g.getNeighbors_sound h
  unfold Graph.allNodes
  exact List.mem_flatMap.mpr ⟨(x, ns), this, List.mem_cons_self _ _⟩

theorem Graph.neighbor_mem_allNodes [DecidableEq T] {g : Graph T} {x n : T} {ns : List T}
    (h : g.getNeighbors x = some ns) (hn : n ∈ ns) : n ∈ g.allNodes := by
  have := g.getNeighbors_sound h
  unfold Graph.allNodes
  exact List.mem_flatMap.mpr ⟨(x, ns), this, List.mem_cons_of_mem _ hn⟩

theorem Graph.getNeighbors_nodup [DecidableEq T] {g : Graph T} {x : T} {ns : List T}
    (hWF : g.WF) (h : g.getNeighbors x = some ns) : ns.Nodup :=
  hWF.2 (x, ns) (g.getNeighbors_sound h)

theorem Graph.remaining_lt [DecidableEq T] {g : Graph T} {cur n : T}
    {ns visited : List T} (h : g.getNeighbors cur = some ns) (hn : n ∈ ns)
    (hnv : n ∉ visited) :
    g.remaining (n :: visited) < g.remaining visited := by
  refine length_filter_lt_of_mem ?_ (g.neighbor_mem_allNodes h hn) ?_ ?_
  · intro x hx
    simp only [decide_eq_true_eq, List.mem_cons, not_or] at hx ⊢
    exact hx.2
  · simp [hnv]
  · simp only [decide_eq_false_iff_not, not_not]
    exact List.mem_cons_self _ _

theorem Graph.remaining_le [DecidableEq T] (g : Graph T) (visited : List T) :
    g.remaining visited ≤ g.allNodes.length :=
  List.length_filter_le _ _

/-! ## The suffix specification of the depth-first search -/

theorem prefix_eq_append_drop {path r : List T} (h : path <+: r) :
    r = path ++ r.drop path.length :=
  (List.prefix_iff_eq_append.mp h).symm

theorem append_cons_drop (path : List T) (n0 : T) (q' : List T) :
    (path ++ n0 :: q').drop (path.length + 1) = q' := by
  have h1 : path ++ n0 :: q' = (path ++ [n0]) ++ q' := by simp
  have h2 : path.length + 1 = (path ++ [n0]).length := by simp
  rw [h1, h2]
  exact List.drop_left _ _

theorem append_cons_prefix_iff {path r q' : List T} {n n0 : T}
    (hr : r = path ++ n0 :: q') : ((path ++ [n]) <+: r) ↔ n = n0 := by
  rw [hr, show path ++ n0 :: q' = path ++ ([n0] ++ q') by simp,
    ← List.append_assoc]
  constructor
  · intro h
    have h2 : [n] <+: [n0] ++ q' := by
      rw [List.append_assoc] at h
      exact (List.prefix_append_right_inj path).mp h
    exact (List.cons_prefix_cons.mp h2).1
  · rintro rfl
    exact List.prefix_append _ _

/-- Count characterisation of `find_all_paths_helper`: with sufficient
fuel, a list `r` occurs in the output once if it extends `path` by a
continuation satisfying `sfx`, and zero times otherwise. -/
theorem Graph.find_all_paths_helper_count [DecidableEq T] (g : Graph T)
    (hWF : ∀ p ∈ g.adjacency_list, p.2.Nodup) (e : T) :
    ∀ fuel visited cur path (r : List T), g.remaining visited < fuel →
      (g.find_all_paths_helper fuel cur e visited path).count r =
        if path <+: r ∧ g.sfx e visited cur (r.drop path.length) = true
        then 1 else 0 := by
  intro fuel
  induction fuel with
  | zero => intro visited cur path r hlt; exact absurd hlt (Nat.not_lt_zero _)
  | succ fuel ih =>
    intro visited cur path r hlt
    simp only [Graph.find_all_paths_helper]
    by_cases hce : cur = e
    · rw [if_pos hce]
      rw [List.count_singleton]
      by_cases hr : path = r
      · subst hr
        rw [if_pos (by exact beq_iff_eq.mpr rfl), if_pos ?_]
        refine ⟨ List.prefix_refl path, ?_⟩
        rw [List.drop_length]
        simp [Graph.sfx, hce]
      · rw [if_neg (by simpa using hr), if_neg ?_]
        rintro ⟨hpre, hsfx⟩
        rcases hq : r.drop path.length with _ | ⟨n0, q'⟩
        · exact hr (by rw [prefix_eq_append_drop hpre, hq, List.append_nil])
        · rw [hq] at hsfx
          simp [Graph.sfx, hce] at hsfx
    · rw [if_neg hce]
      rcases hns : g.getNeighbors cur with _ | ns
      · have hc : ¬(path <+: r ∧
            g.sfx e visited cur (r.drop path.length) = true) := by
          rintro ⟨hpre, hsfx⟩
          rcases hq : r.drop path.length with _ | ⟨n0, q'⟩
          · rw [hq] at hsfx; simp [Graph.sfx, hce] at hsfx
          · rw [hq] at hsfx
            simp only [Graph.sfx, Bool.and_eq_true] at hsfx
            have hedge := hsfx.1.1.2
            rw [Graph.edgeB, hns] at hedge
            exact Bool.false_ne_true hedge
        rw [if_neg hc]
        exact List.count_nil r
      · show (ns.flatMap (fun n =>
            if n ∈ visited then []
            else g.find_all_paths_helper fuel n e (n :: visited)
              (path ++ [n]))).count r = _
        have hnd : ns.Nodup := hWF _ (g.getNeighbors_sound hns)
        by_cases hpre : path <+: r
        · rcases hq : r.drop path.length with _ | ⟨n0, q'⟩
          · have hrp : r = path := by
              rw [prefix_eq_append_drop hpre, hq, List.append_nil]
            rw [if_neg ?_]
            · apply count_flatMap_zero
              intro n hn
              by_cases hv : n ∈ visited
              · simp [hv]
              · rw [if_neg hv]
                have hfast : g.remaining (n :: visited) < fuel := by
                  have := Graph.remaining_lt hns hn hv
                  omega
                rw [ih _ _ _ _ hfast, if_neg ?_]
                rintro ⟨hpre2, _⟩
                have hlen := hpre2.length_le
                rw [hrp] at hlen
                simp at hlen
            · rintro ⟨_, hsfx⟩
              simp [Graph.sfx, hce] at hsfx
          · have hr : r = path ++ n0 :: q' := by
              rw [prefix_eq_append_drop hpre, hq]
            have hB : ∀ n ∈ ns,
                ((if n ∈ visited then []
                  else g.find_all_paths_helper fuel n e (n :: visited)
                    (path ++ [n])).count r) =
                if n = n0 then
                  (if n0 ∉ visited ∧ g.sfx e (n0 :: visited) n0 q' = true
                   then 1 else 0)
                else 0 := by
              intro n hn
              by_cases hv : n ∈ visited
              · rw [if_pos hv, List.count_nil]
                by_cases hn0 : n = n0
                · subst hn0
                  rw [if_pos rfl, if_neg ?_]
                  rintro ⟨h1, _⟩
                  exact h1 hv
                · rw [if_neg hn0]
              · rw [if_neg hv]
                have hfast : g.remaining (n :: visited) < fuel := by
                  have := Graph.remaining_lt hns hn hv
                  omega
                rw [ih _ _ _ _ hfast]
                have hdrop : r.drop (path ++ [n]).length = q' := by
                  rw [List.length_append, List.length_singleton, hr]
                  exact append_cons_drop path n0 q'
                rw [hdrop]
                by_cases hn0 : n = n0
                · subst hn0
                  rw [if_pos rfl]
                  by_cases hsfx : g.sfx e (n :: visited) n q' = true
                  · rw [if_pos ⟨(append_cons_prefix_iff hr).mpr rfl, hsfx⟩,
                      if_pos ⟨hv, hsfx⟩]
                  · rw [if_neg ?_, if_neg ?_]
                    · rintro ⟨_, h2⟩; exact hsfx h2
                    · rintro ⟨_, h2⟩; exact hsfx h2
                · rw [if_neg hn0, if_neg ?_]
                  rintro ⟨hpre2, _⟩
                  exact hn0 ((append_cons_prefix_iff hr).mp hpre2)
            rw [count_flatMap_single hnd hB]
            simp only [Graph.sfx, Bool.and_eq_true, decide_eq_true_eq,
              Bool.not_eq_true', decide_eq_false_iff_not]
            rw [Graph.edgeB, hns]
            by_cases h1 : n0 ∈ ns
            · by_cases h2 : n0 ∈ visited
              · rw [if_pos h1, if_neg ?_, if_neg ?_]
                · rintro ⟨_, ⟨⟨_, _⟩, h⟩, _⟩; exact h h2
                · rintro ⟨h, _⟩; exact h h2
              · by_cases h3 : g.sfx e (n0 :: visited) n0 q' = true
                · rw [if_pos h1, if_pos ⟨h2, h3⟩, if_pos ?_]
                  exact ⟨hpre, ⟨⟨hce, by simpa using h1⟩, h2⟩, h3⟩
                · rw [if_pos h1, if_neg ?_, if_neg ?_]
                  · rintro ⟨_, _, h⟩; exact h3 h
                  · rintro ⟨_, h⟩; exact h3 h
            · rw [if_neg h1, if_neg ?_]
              rintro ⟨_, ⟨⟨_, h⟩, _⟩, _⟩
              simp at h
              exact h1 h
        · rw [if_neg (fun h => hpre h.1)]
          apply count_flatMap_zero
          intro n hn
          by_cases hv : n ∈ visited
          · simp [hv]
          · rw [if_neg hv]
            have hfast : g.remaining (n :: visited) < fuel := by
              have := Graph.remaining_lt hns hn hv
              omega
            rw [ih _ _ _ _ hfast, if_neg ?_]
            rintro ⟨hpre2, _⟩
            exact hpre ((List.prefix_append path [n]).trans hpre2)

/-- Count characterisation of `find_paths_with_max_steps_helper`. -/
theorem Graph.find_paths_with_max_steps_helper_count [DecidableEq T] (g : Graph T)
    (hWF : ∀ p ∈ g.adjacency_list, p.2.Nodup) (e : T) (k : Nat) :
    ∀ fuel visited cur path (r : List T), g.remaining visited < fuel →
      (g.find_paths_with_max_steps_helper fuel cur e k visited path).count r =
        if path <+: r ∧
            g.sfxK e k visited cur path.length (r.drop path.length) = true
        then 1 else 0 := by
  intro fuel
  induction fuel with
  | zero => intro visited cur path r hlt; exact absurd hlt (Nat.not_lt_zero _)
  | succ fuel ih =>
    intro visited cur path r hlt
    simp only [Graph.find_paths_with_max_steps_helper]
    by_cases hce : cur = e
    · rw [if_pos hce]
      rw [List.count_singleton]
      by_cases hr : path = r
      · subst hr
        rw [if_pos (by exact beq_iff_eq.mpr rfl), if_pos ?_]
        refine ⟨ List.prefix_refl path, ?_⟩
        rw [List.drop_length]
        simp [Graph.sfxK, hce]
      · rw [if_neg (by simpa using hr), if_neg ?_]
        rintro ⟨hpre, hsfx⟩
        rcases hq : r.drop path.length with _ | ⟨n0, q'⟩
        · exact hr (by rw [prefix_eq_append_drop hpre, hq, List.append_nil])
        · rw [hq] at hsfx
          simp [Graph.sfxK, hce] at hsfx
    · rw [if_neg hce]
      by_cases hguard : k ≤ path.length
      · rw [if_pos hguard, if_neg ?_]
        · exact List.count_nil r
        rintro ⟨hpre, hsfx⟩
        rcases hq : r.drop path.length with _ | ⟨n0, q'⟩
        · rw [hq] at hsfx; simp [Graph.sfxK, hce] at hsfx
        · rw [hq] at hsfx
          simp only [Graph.sfxK, Bool.and_eq_true, decide_eq_true_eq] at hsfx
          omega
      · rw [if_neg hguard]
        have hlenk : path.length < k := Nat.lt_of_not_le hguard
        rcases hns : g.getNeighbors cur with _ | ns
        · have hc : ¬(path <+: r ∧
              g.sfxK e k visited cur path.length (r.drop path.length) = true) := by
            rintro ⟨hpre, hsfx⟩
            rcases hq : r.drop path.length with _ | ⟨n0, q'⟩
            · rw [hq] at hsfx; simp [Graph.sfxK, hce] at hsfx
            · rw [hq] at hsfx
              simp only [Graph.sfxK, Bool.and_eq_true] at hsfx
              have hedge := hsfx.1.1.2
              rw [Graph.edgeB, hns] at hedge
              exact Bool.false_ne_true hedge
          rw [if_neg hc]
          exact List.count_nil r
        · show (ns.flatMap (fun n =>
              if n ∈ visited then []
              else g.find_paths_with_max_steps_helper fuel n e k (n :: visited)
                (path ++ [n]))).count r = _
          have hnd : ns.Nodup := hWF _ (g.getNeighbors_sound hns)
          by_cases hpre : path <+: r
          · rcases hq : r.drop path.length with _ | ⟨n0, q'⟩
            · have hrp : r = path := by
                rw [prefix_eq_append_drop hpre, hq, List.append_nil]
              rw [if_neg ?_]
              · apply count_flatMap_zero
                intro n hn
                by_cases hv : n ∈ visited
                · simp [hv]
                · rw [if_neg hv]
                  have hfast : g.remaining (n :: visited) < fuel := by
                    have := Graph.remaining_lt hns hn hv
                    omega
                  rw [ih _ _ _ _ hfast, if_neg ?_]
                  rintro ⟨hpre2, _⟩
                  have hlen := hpre2.length_le
                  rw [hrp] at hlen
                  simp at hlen
              · rintro ⟨_, hsfx⟩
                simp [Graph.sfxK, hce] at hsfx
            · have hr : r = path ++ n0 :: q' := by
                rw [prefix_eq_append_drop hpre, hq]
              have hB : ∀ n ∈ ns,
                  ((if n ∈ visited then []
                    else g.find_paths_with_max_steps_helper fuel n e k
                      (n :: visited) (path ++ [n])).count r) =
                  if n = n0 then
                    (if n0 ∉ visited ∧
                        g.sfxK e k (n0 :: visited) n0 (path.length + 1) q' = true
                     then 1 else 0)
                  else 0 := by
                intro n hn
                by_cases hv : n ∈ visited
                · rw [if_pos hv, List.count_nil]
                  by_cases hn0 : n = n0
                  · subst hn0
                    rw [if_pos rfl, if_neg ?_]
                    rintro ⟨h1, _⟩
                    exact h1 hv
                  · rw [if_neg hn0]
                · rw [if_neg hv]
                  have hfast : g.remaining (n :: visited) < fuel := by
                    have := Graph.remaining_lt hns hn hv
                    omega
                  rw [ih _ _ _ _ hfast]
                  have hdrop : r.drop (path ++ [n]).length = q' := by
                    rw [List.length_append, List.length_singleton, hr]
                    exact append_cons_drop path n0 q'
                  have hplen : (path ++ [n]).length = path.length + 1 := by
                    simp
                  rw [hdrop, hplen]
                  by_cases hn0 : n = n0
                  · subst hn0
                    rw [if_pos rfl]
                    by_cases hsfx :
                        g.sfxK e k (n :: visited) n (path.length + 1) q' = true
                    · rw [if_pos ⟨(append_cons_prefix_iff hr).mpr rfl, hsfx⟩,
                        if_pos ⟨hv, hsfx⟩]
                    · rw [if_neg ?_, if_neg ?_]
                      · rintro ⟨_, h2⟩; exact hsfx h2
                      · rintro ⟨_, h2⟩; exact hsfx h2
                  · rw [if_neg hn0, if_neg ?_]
                    rintro ⟨hpre2, _⟩
                    exact hn0 ((append_cons_prefix_iff hr).mp hpre2)
              rw [count_flatMap_single hnd hB]
              simp only [Graph.sfxK, Bool.and_eq_true, decide_eq_true_eq,
                Bool.not_eq_true', decide_eq_false_iff_not]
              rw [Graph.edgeB, hns]
              by_cases h1 : n0 ∈ ns
              · by_cases h2 : n0 ∈ visited
                · rw [if_pos h1, if_neg ?_, if_neg ?_]
                  · rintro ⟨_, ⟨⟨_, _⟩, h⟩, _⟩; exact h h2
                  · rintro ⟨h, _⟩; exact h h2
                · by_cases h3 :
                      g.sfxK e k (n0 :: visited) n0 (path.length + 1) q' = true
                  · rw [if_pos h1, if_pos ⟨h2, h3⟩, if_pos ?_]
                    exact ⟨hpre, ⟨⟨⟨hce, hlenk⟩, by simpa using h1⟩, h2⟩, h3⟩
                  · rw [if_pos h1, if_neg ?_, if_neg ?_]
                    · rintro ⟨_, _, h⟩; exact h3 h
                    · rintro ⟨_, h⟩; exact h3 h
              · rw [if_neg h1, if_neg ?_]
                rintro ⟨_, ⟨⟨_, h⟩, _⟩, _⟩
                simp at h
                exact h1 h
          · rw [if_neg (fun h => hpre h.1)]
            apply count_flatMap_zero
            intro n hn
            by_cases hv : n ∈ visited
            · simp [hv]
            · rw [if_neg hv]
              have hfast : g.remaining (n :: visited) < fuel := by
                have := Graph.remaining_lt hns hn hv
                omega
              rw [ih _ _ _ _ hfast, if_neg ?_]
              rintro ⟨hpre2, _⟩
              exact hpre ((List.prefix_append path [n]).trans hpre2)

/-! ## From `sfx` to simple paths -/

theorem Graph.sfx_iff [DecidableEq T] (g : Graph T) (e : T) :
    ∀ (q visited : List T) (cur : T),
      g.sfx e visited cur q = true ↔
        (g.chainB (cur :: q) = true ∧ q.Nodup ∧ (∀ x ∈ q, x ∉ visited) ∧
          (cur :: q).getLast? = some e ∧ e ∉ (cur :: q).dropLast) := by
  intro q
  induction q with
  | nil =>
    intro visited cur
    simp [Graph.sfx, Graph.chainB]
  | cons n q ih =>
    intro visited cur
    simp only [Graph.sfx, Bool.and_eq_true, decide_eq_true_eq,
      Bool.not_eq_true', decide_eq_false_iff_not, ih,
      List.getLast?_cons_cons, List.dropLast_cons₂]
    constructor
    · rintro ⟨⟨⟨hne, hedge⟩, hnv⟩, hch, hnd, hforall, hlast, hdl⟩
      refine ⟨?_, ?_, ?_, hlast, ?_⟩
      · simp [Graph.chainB, hedge, hch]
      · refine List.nodup_cons.mpr ⟨?_, hnd⟩
        intro hnq
        exact hforall n hnq (List.mem_cons_self _ _)
      · intro x hx
        rcases List.mem_cons.mp hx with rfl | hxq
        · exact hnv
        · intro hv
          exact hforall x hxq (List.mem_cons_of_mem _ hv)
      · intro hmem
        rcases List.mem_cons.mp hmem with rfl | hdl2
        · exact hne rfl
        · exact hdl hdl2
    · rintro ⟨hch, hnd, hall, hlast, hdl⟩
      have hchsplit : g.edgeB cur n = true ∧ g.chainB (n :: q) = true := by
        simpa [Graph.chainB, Bool.and_eq_true] using hch
      obtain ⟨hnq, hndq⟩ := List.nodup_cons.mp hnd
      refine ⟨⟨⟨?_, hchsplit.1⟩, hall n (List.mem_cons_self n q)⟩,
        hchsplit.2, hndq, ?_, hlast, ?_⟩
      · intro h
        subst h
        exact hdl (List.mem_cons_self _ _)
      · intro x hxq hmem
        rcases List.mem_cons.mp hmem with rfl | hv
        · exact hnq hxq
        · exact hall x (List.mem_cons_of_mem n hxq) hv
      · intro h
        exact hdl (List.mem_cons_of_mem _ h)

theorem Graph.sfxK_iff [DecidableEq T] (g : Graph T) (e : T) (k : Nat) :
    ∀ (q visited : List T) (cur : T) (plen : Nat),
      g.sfxK e k visited cur plen q = true ↔
        (g.sfx e visited cur q = true ∧ (q = [] ∨ plen + q.length ≤ k)) := by
  intro q
  induction q with
  | nil =>
    intro visited cur plen
    simp [Graph.sfxK, Graph.sfx]
  | cons n q ih =>
    intro visited cur plen
    simp only [Graph.sfxK, Graph.sfx, Bool.and_eq_true, decide_eq_true_eq,
      Bool.not_eq_true', decide_eq_false_iff_not, ih, List.length_cons]
    constructor
    · rintro ⟨⟨⟨⟨hne, hpk⟩, hedge⟩, hnv⟩, hsfx, hlen⟩
      refine ⟨⟨⟨⟨hne, hedge⟩, hnv⟩, hsfx⟩, Or.inr ?_⟩
      rcases hlen with rfl | h
      · simp
        omega
      · omega
    · rintro ⟨⟨⟨⟨hne, hedge⟩, hnv⟩, hsfx⟩, hlen⟩
      have hk2 : plen + (q.length + 1) ≤ k := by
        rcases hlen with h | h
        · exact absurd h (List.cons_ne_nil n q)
        · exact h
      exact ⟨⟨⟨⟨hne, by omega⟩, hedge⟩, hnv⟩, hsfx, Or.inr (by omega)⟩

theorem nodup_getLast?_not_mem_dropLast {l : List T} {x : T} (hnd : l.Nodup)
    (hl : l.getLast? = some x) : x ∉ l.dropLast := by
  have hne : l ≠ [] := by rintro rfl; simp at hl
  have heq := List.dropLast_append_getLast hne
  have hlast : l.getLast hne = x := by
    have h2 := List.getLast?_eq_getLast l hne
    rw [h2] at hl
    exact Option.some.inj hl
  rw [← heq] at hnd
  rcases List.nodup_append.mp hnd with ⟨_, _, hdisj⟩
  intro hmem
  exact hdisj hmem (List.mem_singleton.mpr hlast.symm)

/-- At the top level (`visited = path = [start]`) the suffix specification
is exactly the simple-path property. -/
theorem Graph.sfx_top_iff [DecidableEq T] (g : Graph T) (s e : T) (u : List T) :
    g.sfx e [s] s u = true ↔ g.isSimplePath s e (s :: u) = true := by
  rw [g.sfx_iff e u [s] s]
  constructor
  · rintro ⟨hch, hnd, hall, hlast, _⟩
    have hsu : s ∉ u := fun hmem => hall s hmem (List.mem_singleton.mpr rfl)
    unfold Graph.isSimplePath
    simp only [Bool.and_eq_true, decide_eq_true_eq]
    exact ⟨⟨⟨by simp, hlast⟩, hch⟩, List.nodup_cons.mpr ⟨hsu, hnd⟩⟩
  · intro h
    unfold Graph.isSimplePath at h
    simp only [Bool.and_eq_true, decide_eq_true_eq] at h
    obtain ⟨⟨⟨_, h2⟩, h3⟩, h4⟩ := h
    obtain ⟨hsu, hnd⟩ := List.nodup_cons.mp h4
    refine ⟨h3, hnd, ?_, h2, ?_⟩
    · intro x hx hmem
      rcases List.mem_singleton.mp hmem with rfl
      exact hsu hx
    · exact nodup_getLast?_not_mem_dropLast h4 h2

theorem Graph.isSimplePath_shape [DecidableEq T] {g : Graph T} {s e : T}
    {r : List T} (h : g.isSimplePath s e r = true) : ∃ u, r = s :: u := by
  rcases r with _ | ⟨a, u⟩
  · simp [Graph.isSimplePath] at h
  · have ha : a = s := by
      simp only [Graph.isSimplePath, Bool.and_eq_true, decide_eq_true_eq] at h
      simpa using h.1.1.1
    exact ⟨u, by rw [ha]⟩

/-! ## Top-level count characterisations -/

/-- `find_all_paths` contains each simple path from `s` to `e` exactly
once and contains nothing else. -/
theorem Graph.find_all_paths_count [DecidableEq T] (g : Graph T) (hWF : g.WF)
    (s e : T) (r : List T) :
    (g.find_all_paths s e).count r =
      if g.isSimplePath s e r = true then 1 else 0 := by
  unfold Graph.find_all_paths
  rw [g.find_all_paths_helper_count hWF.2 e (g.allNodes.length + 1) [s] s [s] r
    (Nat.lt_succ_of_le (g.remaining_le [s]))]
  refine if_congr ?_ rfl rfl
  by_cases hpre : [s] <+: r
  · obtain ⟨u, hu⟩ := hpre
    subst hu
    have hd : ([s] ++ u).drop [s].length = u := List.drop_left [s] u
    rw [hd]
    have hsu : [s] ++ u = s :: u := by simp
    rw [hsu]
    rw [g.sfx_top_iff]
    constructor
    · rintro ⟨_, hsp⟩; exact hsp
    · intro hsp; exact ⟨⟨u, by simp⟩, hsp⟩
  · constructor
    · rintro ⟨hp, _⟩
      exact absurd hp hpre
    · intro hsp
      obtain ⟨u, hu⟩ := Graph.isSimplePath_shape hsp
      exact absurd ⟨u, by rw [hu]; simp⟩ hpre

/-- `find_paths_with_max_steps` contains each simple path of node count
at most `k` exactly once — and also always the single-node path `[s]`
when `s = e`, regardless of `k` (the end-equality check precedes the
length guard). -/
theorem Graph.find_paths_with_max_steps_count [DecidableEq T] (g : Graph T)
    (hWF : g.WF) (s e : T) (k : Nat) (r : List T) :
    (g.find_paths_with_max_steps s e k).count r =
      if g.isSimplePath s e r = true ∧ (r = [s] ∨ r.length ≤ k)
      then 1 else 0 := by
  unfold Graph.find_paths_with_max_steps
  rw [g.find_paths_with_max_steps_helper_count hWF.2 e k (g.allNodes.length + 1)
    [s] s [s] r (Nat.lt_succ_of_le (g.remaining_le [s]))]
  refine if_congr ?_ rfl rfl
  by_cases hpre : [s] <+: r
  · obtain ⟨u, hu⟩ := hpre
    subst hu
    have hd : ([s] ++ u).drop [s].length = u := List.drop_left [s] u
    rw [hd]
    have hsu : [s] ++ u = s :: u := by simp
    rw [hsu]
    rw [g.sfxK_iff e k u [s] s [s].length]
    rw [g.sfx_top_iff]
    constructor
    · rintro ⟨hp, hsp, hlen⟩
      refine ⟨hsp, ?_⟩
      rcases hlen with rfl | h
      · exact Or.inl rfl
      · right
        simp only [List.length_singleton] at h
        simp only [List.length_cons]
        omega
    · rintro ⟨hsp, hlen⟩
      refine ⟨⟨u, by simp⟩, hsp, ?_⟩
      rcases hlen with heq | h
      · left
        simpa using heq
      · right
        simp only [List.length_cons] at h
        simp only [List.length_singleton]
        omega
  · constructor
    · rintro ⟨hp, _⟩
      exact absurd hp hpre
    · rintro ⟨hsp, _⟩
      obtain ⟨u, hu⟩ := Graph.isSimplePath_shape hsp
      exact absurd ⟨u, by rw [hu]; simp⟩ hpre

/-! ## Membership and length corollaries -/

theorem Graph.mem_find_all_paths [DecidableEq T] {g : Graph T} (hWF : g.WF)
    {s e : T} {r : List T} :
    r ∈ g.find_all_paths s e ↔ g.isSimplePath s e r = true := by
  rw [← List.count_pos_iff, g.find_all_paths_count hWF s e r]
  by_cases h : g.isSimplePath s e r = true <;> simp [h]

theorem Graph.mem_find_paths_with_max_steps [DecidableEq T] {g : Graph T}
    (hWF : g.WF) {s e : T} {k : Nat} {r : List T} :
    r ∈ g.find_paths_with_max_steps s e k ↔
      (g.isSimplePath s e r = true ∧ (r = [s] ∨ r.length ≤ k)) := by
  rw [← List.count_pos_iff, g.find_paths_with_max_steps_count hWF s e k r]
  by_cases h : g.isSimplePath s e r = true ∧ (r = [s] ∨ r.length ≤ k) <;>
    simp [h]

theorem Graph.edgeB_true_iff [DecidableEq T] {g : Graph T} {a b : T} :
    g.edgeB a b = true ↔ ∃ ns, g.getNeighbors a = some ns ∧ b ∈ ns := by
  unfold Graph.edgeB
  rcases h : g.getNeighbors a with _ | ns
  · simp
  · simp

theorem Graph.edge_source_mem [DecidableEq T] {g : Graph T} {a b : T}
    (h : g.edgeB a b = true) : a ∈ g.allNodes := by
  obtain ⟨ns, hns, _⟩ := Graph.edgeB_true_iff.mp h
  exact g.key_mem_allNodes hns

theorem Graph.edge_target_mem [DecidableEq T] {g : Graph T} {a b : T}
    (h : g.edgeB a b = true) : b ∈ g.allNodes := by
  obtain ⟨ns, hns, hb⟩ := Graph.edgeB_true_iff.mp h
  exact g.neighbor_mem_allNodes hns hb

theorem Graph.chainB_subset [DecidableEq T] {g : Graph T} :
    ∀ {l : List T} {a : T}, g.chainB (a :: l) = true → ∀ x ∈ l, x ∈ g.allNodes := by
  intro l
  induction l with
  | nil => intro a _ x hx; cases hx
  | cons b l ih =>
    intro a hch x hx
    have hsplit : g.edgeB a b = true ∧ g.chainB (b :: l) = true := by
      simpa [Graph.chainB, Bool.and_eq_true] using hch
    rcases List.mem_cons.mp hx with rfl | hxl
    · exact g.edge_target_mem hsplit.1
    · exact ih hsplit.2 x hxl

theorem nodup_subset_length_le [DecidableEq T] {l m : List T} (hnd : l.Nodup)
    (hsub : ∀ x ∈ l, x ∈ m) : l.length ≤ m.dedup.length := by
  have h1 : l.toFinset.card = l.length := List.toFinset_card_of_nodup hnd
  have h2 : m.toFinset.card = m.dedup.length := List.card_toFinset m
  rw [← h1, ← h2]
  apply Finset.card_le_card
  intro x hx
  exact List.mem_toFinset.mpr (hsub x (List.mem_toFinset.mp hx))

theorem Graph.isSimplePath_nodup [DecidableEq T] {g : Graph T} {s e : T}
    {r : List T} (h : g.isSimplePath s e r = true) :
    r.Nodup ∧ r.head? = some s ∧ r.getLast? = some e := by
  simp only [Graph.isSimplePath, Bool.and_eq_true, decide_eq_true_eq] at h
  exact ⟨h.2, h.1.1.1, h.1.1.2⟩

theorem Graph.isSimplePath_length_le [DecidableEq T] {g : Graph T} {s e : T}
    {r : List T} (h : g.isSimplePath s e r = true) :
    r.length ≤ ((s :: g.allNodes).dedup).length := by
  obtain ⟨u, rfl⟩ := Graph.isSimplePath_shape h
  simp only [Graph.isSimplePath, Bool.and_eq_true, decide_eq_true_eq] at h
  obtain ⟨⟨⟨_, _⟩, hch⟩, hnd⟩ := h
  apply nodup_subset_length_le hnd
  intro x hx
  rcases List.mem_cons.mp hx with rfl | hxu
  · exact List.mem_cons_self _ _
  · exact List.mem_cons_of_mem _ (g.chainB_subset hch x hxu)

theorem Graph.isSimplePath_single_or_short [DecidableEq T] {g : Graph T}
    {s e : T} {r : List T} (h : g.isSimplePath s e r = true) :
    r = [s] ∨ r.length ≤ g.allNodes.dedup.length := by
  obtain ⟨u, rfl⟩ := Graph.isSimplePath_shape h
  rcases u with _ | ⟨b, u'⟩
  · exact Or.inl rfl
  · right
    simp only [Graph.isSimplePath, Bool.and_eq_true, decide_eq_true_eq] at h
    obtain ⟨⟨⟨_, _⟩, hch⟩, hnd⟩ := h
    have hsplit : g.edgeB s b = true ∧ g.chainB (b :: u') = true := by
      simpa [Graph.chainB, Bool.and_eq_true] using hch
    apply nodup_subset_length_le hnd
    intro x hx
    rcases List.mem_cons.mp hx with rfl | hxu
    · exact g.edge_source_mem hsplit.1
    · exact g.chainB_subset hch x hxu

/-! ## Algebra of `add_edge` -/

theorem lookupAL_cons [DecidableEq T] (k : T) (s : List T)
    (al : List (T × List T)) (x : T) :
    lookupAL ((k, s) :: al) x = if k = x then some s else lookupAL al x := by
  unfold lookupAL
  rw [List.find?_cons]
  by_cases hk : k = x
  · simp [hk]
  · simp [hk]

theorem mem_hsInsert [DecidableEq T] {s : List T} {a y : T} :
    a ∈ hsInsert s y ↔ a = y ∨ a ∈ s := by
  unfold hsInsert
  by_cases h : y ∈ s
  · rw [if_pos h]
    constructor
    · exact Or.inr
    · rintro (rfl | h2)
      · exact h
      · exact h2
  · rw [if_neg h]
    exact List.mem_cons

theorem lookupAL_alInsert_self [DecidableEq T] :
    ∀ (al : List (T × List T)) (x y : T),
      lookupAL (alInsert al x y) x =
        some (hsInsert ((lookupAL al x).getD []) y) := by
  intro al
  induction al with
  | nil => intro x y; simp [alInsert, lookupAL, hsInsert]
  | cons p al ih =>
    intro x y
    rcases p with ⟨k, s⟩
    by_cases hk : k = x
    · subst hk
      rw [alInsert, if_pos rfl, lookupAL_cons, if_pos rfl, lookupAL_cons,
        if_pos rfl]
      simp
    · rw [alInsert, if_neg hk, lookupAL_cons, if_neg hk, lookupAL_cons,
        if_neg hk]
      exact ih x y

theorem lookupAL_alInsert_ne [DecidableEq T] :
    ∀ (al : List (T × List T)) {x z : T} (y : T), z ≠ x →
      lookupAL (alInsert al x y) z = lookupAL al z := by
  intro al
  induction al with
  | nil =>
    intro x z y h
    rw [alInsert, lookupAL_cons, if_neg (fun hh => h hh.symm)]
  | cons p al ih =>
    intro x z y h
    rcases p with ⟨k, s⟩
    by_cases hk : k = x
    · subst hk
      rw [alInsert, if_pos rfl, lookupAL_cons, lookupAL_cons,
        if_neg (fun hh => h hh.symm), if_neg (fun hh => h hh.symm)]
    · rw [alInsert, if_neg hk, lookupAL_cons, lookupAL_cons]
      by_cases hkz : k = z
      · rw [if_pos hkz, if_pos hkz]
      · rw [if_neg hkz, if_neg hkz]
        exact ih y h

theorem elB_alInsert [DecidableEq T] (al : List (T × List T)) (x y a b : T) :
    elB (alInsert al x y) a b =
      (elB al a b || (decide (a = x) && decide (b = y))) := by
  by_cases ha : a = x
  · subst ha
    unfold elB
    rw [lookupAL_alInsert_self]
    rcases h : lookupAL al a with _ | ns
    · simp only [Option.getD_none]
      by_cases hb : b = y <;> simp [hsInsert, hb]
    · simp only [Option.getD_some]
      by_cases hb : b = y <;> by_cases hbn : b ∈ ns <;>
        simp [mem_hsInsert, hb, hbn]
  · unfold elB
    rw [lookupAL_alInsert_ne al y ha]
    simp [ha]

theorem hasKeyAL_alInsert [DecidableEq T] (al : List (T × List T)) (x y z : T) :
    (lookupAL (alInsert al x y) z).isSome =
      ((lookupAL al z).isSome || decide (z = x)) := by
  by_cases hz : z = x
  · subst hz
    rw [lookupAL_alInsert_self]
    simp
  · rw [lookupAL_alInsert_ne al y hz]
    simp [hz]

theorem alInsert_of_mem [DecidableEq T] :
    ∀ (al : List (T × List T)) (x y : T) (ns : List T),
      lookupAL al x = some ns → y ∈ ns → alInsert al x y = al := by
  intro al
  induction al with
  | nil => intro x y ns h; simp [lookupAL] at h
  | cons p al ih =>
    intro x y ns h hy
    rcases p with ⟨k, s⟩
    by_cases hk : k = x
    · subst hk
      rw [lookupAL_cons, if_pos rfl] at h
      have hs : s = ns := Option.some.inj h
      rw [alInsert, if_pos rfl]
      have hins : hsInsert s y = s := by
        unfold hsInsert
        rw [if_pos (hs ▸ hy)]
      rw [hins]
    · rw [lookupAL_cons, if_neg hk] at h
      rw [alInsert, if_neg hk, ih x y ns h hy]

theorem Graph.edgeB_eq_elB [DecidableEq T] (g : Graph T) (a b : T) :
    g.edgeB a b = elB g.adjacency_list a b := rfl

theorem Graph.edgeB_add_edge [DecidableEq T] (g : Graph T) (x y a b : T) :
    (g.add_edge x y).edgeB a b =
      if g.is_directed
      then (g.edgeB a b || (decide (a = x) && decide (b = y)))
      else (g.edgeB a b || (decide (a = x) && decide (b = y)) ||
        (decide (a = y) && decide (b = x))) := by
  rcases hd : g.is_directed with _ | _
  · rw [if_neg (by simp [hd])]
    show elB (if g.is_directed then alInsert g.adjacency_list x y
      else alInsert (alInsert g.adjacency_list x y) y x) a b = _
    rw [hd, if_neg (by simp), elB_alInsert, elB_alInsert,
      ← Graph.edgeB_eq_elB]
  · rw [if_pos (by simp [hd])]
    show elB (if g.is_directed then alInsert g.adjacency_list x y
      else alInsert (alInsert g.adjacency_list x y) y x) a b = _
    rw [hd, if_pos rfl, elB_alInsert, ← Graph.edgeB_eq_elB]

theorem Graph.hasKey_add_edge [DecidableEq T] (g : Graph T) (x y z : T) :
    (g.add_edge x y).hasKey z =
      if g.is_directed then (g.hasKey z || decide (z = x))
      else (g.hasKey z || decide (z = x) || decide (z = y)) := by
  rcases hd : g.is_directed with _ | _
  · rw [if_neg (by simp [hd])]
    show (lookupAL (if g.is_directed then alInsert g.adjacency_list x y
      else alInsert (alInsert g.adjacency_list x y) y x) z).isSome = _
    rw [hd, if_neg (by simp), hasKeyAL_alInsert, hasKeyAL_alInsert]
    rfl
  · rw [if_pos (by simp [hd])]
    show (lookupAL (if g.is_directed then alInsert g.adjacency_list x y
      else alInsert (alInsert g.adjacency_list x y) y x) z).isSome = _
    rw [hd, if_pos rfl, hasKeyAL_alInsert]
    rfl

theorem Graph.add_edges_cons [DecidableEq T] (g : Graph T) (p : T × T)
    (es : List (T × T)) :
    g.add_edges (p :: es) = (g.add_edge p.1 p.2).add_edges es := rfl

theorem Graph.edgeB_symm_of_add_edges [DecidableEq T] :
    ∀ (es : List (T × T)) (g : Graph T), g.is_directed = false →
      (∀ a b, g.edgeB a b = g.edgeB b a) →
      ∀ a b, (g.add_edges es).edgeB a b = (g.add_edges es).edgeB b a := by
  intro es
  induction es with
  | nil => intro g _ hsym a b; exact hsym a b
  | cons p es ih =>
    intro g hd hsym a b
    rw [Graph.add_edges_cons]
    refine ih (g.add_edge p.1 p.2)
      (show (g.add_edge p.1 p.2).is_directed = false from hd) ?_ a b
    intro a' b'
    rw [Graph.edgeB_add_edge, Graph.edgeB_add_edge, hd]
    simp only [Bool.false_eq_true, if_false]
    rw [hsym a' b']
    by_cases h1 : a' = p.1 <;> by_cases h2 : b' = p.2 <;>
      by_cases h3 : a' = p.2 <;> by_cases h4 : b' = p.1 <;>
      simp [h1, h2, h3, h4]

/-! ## The claims -/

/-- C1: for every graph and node keys `start`, `end`, `find_all_paths`
returns exactly the set of simple paths from `start` to `end`: every
returned sequence is a simple path and every simple path occurs exactly
once in the result (stated as an exact occurrence count, insensitive to
the unspecified order). -/
theorem find_all_paths_exactly_simple_paths [DecidableEq T] (g : Graph T)
    (hWF : g.WF) (s e : T) (r : List T) :
    (g.find_all_paths s e).count r =
      if g.isSimplePath s e r = true then 1 else 0 :=
  g.find_all_paths_count hWF s e r

theorem find_all_paths_exactly_simple_paths_witness :
    chainGraph.WF ∧ (chainGraph.find_all_paths 1 4).count [1, 2, 3, 4] = 1 :=
  ⟨by decide, by
    rw [find_all_paths_exactly_simple_paths chainGraph (by decide) 1 4
      [1, 2, 3, 4]]
    decide⟩

/-- C2 (counterexample): with `start = end` and `max_steps = 0` the
bounded search still returns the single-node path (node count 1 > 0),
so it is not the node-count filter of `find_all_paths`. -/
theorem find_paths_with_max_steps_not_length_filter :
    (Graph.new none : Graph Nat).find_paths_with_max_steps 0 0 0 ≠
      ((Graph.new none : Graph Nat).find_all_paths 0 0).filter
        (fun p => decide (p.length ≤ 0)) := by
  decide

/-- C2 (amended): whenever `start ≠ end` or `k ≥ 1`, the bounded result
equals the node-count filter of the unbounded one, occurrence for
occurrence.  (At `k = 0` with `start = end` the bounded result is
`[[start]]`, of node count 1 > 0.) -/
theorem find_paths_with_max_steps_eq_length_filter [DecidableEq T]
    (g : Graph T) (hWF : g.WF) (s e : T) (k : Nat) (hk : s ≠ e ∨ 1 ≤ k)
    (r : List T) :
    (g.find_paths_with_max_steps s e k).count r =
      ((g.find_all_paths s e).filter (fun p => decide (p.length ≤ k))).count r := by
  rw [g.find_paths_with_max_steps_count hWF s e k r]
  by_cases hlen : r.length ≤ k
  · rw [List.count_filter (by simpa using hlen),
      g.find_all_paths_count hWF s e r]
    by_cases hsp : g.isSimplePath s e r = true
    · rw [if_pos ⟨hsp, Or.inr hlen⟩, if_pos hsp]
    · rw [if_neg (fun hc => hsp hc.1), if_neg hsp]
  · have hnot : r ∉ (g.find_all_paths s e).filter
        (fun p => decide (p.length ≤ k)) := by
      intro hmem
      have h2 := (List.mem_filter.mp hmem).2
      simp at h2
      omega
    rw [List.count_eq_zero.mpr hnot, if_neg ?_]
    rintro ⟨hsp, hor⟩
    rcases hor with rfl | h
    · have hse : s = e := by
        have h2 := (Graph.isSimplePath_nodup hsp).2.2
        simpa using h2
      rcases hk with hne | hge
      · exact hne hse
      · simp at hlen
        omega
    · exact hlen h

theorem find_paths_with_max_steps_eq_length_filter_witness :
    chainGraph.WF ∧ ((1 : Nat) ≠ 4 ∨ 1 ≤ 3) ∧
    (chainGraph.find_paths_with_max_steps 1 4 3).count [1, 2, 3, 4] =
      ((chainGraph.find_all_paths 1 4).filter
        (fun p => decide (p.length ≤ 3))).count [1, 2, 3, 4] :=
  ⟨by decide, Or.inl (by decide),
    find_paths_with_max_steps_eq_length_filter chainGraph (by decide) 1 4 3
      (Or.inl (by decide)) [1, 2, 3, 4]⟩

/-- C3: every path returned by `find_all_paths` or by
`find_paths_with_max_steps` (for any `k`) has no repeated node, starts
with `start` and ends with `end`. -/
theorem returned_paths_simple [DecidableEq T] (g : Graph T) (hWF : g.WF)
    (s e : T) (k : Nat) (r : List T)
    (hr : r ∈ g.find_all_paths s e ∨ r ∈ g.find_paths_with_max_steps s e k) :
    r.Nodup ∧ r.head? = some s ∧ r.getLast? = some e := by
  rcases hr with h | h
  · exact Graph.isSimplePath_nodup ((Graph.mem_find_all_paths hWF).mp h)
  · exact Graph.isSimplePath_nodup
      ((Graph.mem_find_paths_with_max_steps hWF).mp h).1

theorem returned_paths_simple_witness :
    chainGraph.WF ∧
    ([1, 2, 3, 4] ∈ chainGraph.find_all_paths 1 4 ∨
      [1, 2, 3, 4] ∈ chainGraph.find_paths_with_max_steps 1 4 9) ∧
    (([1, 2, 3, 4] : List Nat).Nodup ∧
      ([1, 2, 3, 4] : List Nat).head? = some 1 ∧
      ([1, 2, 3, 4] : List Nat).getLast? = some 4) :=
  ⟨by decide, Or.inl (by decide),
    returned_paths_simple chainGraph (by decide) 1 4 9 [1, 2, 3, 4]
      (Or.inl (by decide))⟩

/-- C4: `find_paths_with_max_steps s s k` returns exactly the single-node
path `[s]` for every `k`, including `k = 0`, because the end-equality
check precedes the length guard. -/
theorem find_paths_with_max_steps_self [DecidableEq T] (g : Graph T)
    (s : T) (k : Nat) :
    g.find_paths_with_max_steps s s k = [[s]] := by
  unfold Graph.find_paths_with_max_steps
  simp [Graph.find_paths_with_max_steps_helper]

theorem find_paths_with_max_steps_self_witness :
    chainGraph.find_paths_with_max_steps 1 1 0 = [[1]] :=
  find_paths_with_max_steps_self chainGraph 1 0

/-- C5: for `k1 < k2` the bounded result at `k1` is contained in the
bounded result at `k2`. -/
theorem find_paths_with_max_steps_mono [DecidableEq T] (g : Graph T)
    (hWF : g.WF) (s e : T) (k1 k2 : Nat) (hk : k1 < k2) (r : List T)
    (hr : r ∈ g.find_paths_with_max_steps s e k1) :
    r ∈ g.find_paths_with_max_steps s e k2 := by
  rw [Graph.mem_find_paths_with_max_steps hWF] at hr ⊢
  obtain ⟨hsp, hor⟩ := hr
  refine ⟨hsp, ?_⟩
  rcases hor with h | h
  · exact Or.inl h
  · exact Or.inr (le_trans h (le_of_lt hk))

theorem find_paths_with_max_steps_mono_witness :
    chainGraph.WF ∧ (4 : Nat) < 5 ∧
    ([1, 2, 3, 4] ∈ chainGraph.find_paths_with_max_steps 1 4 5) :=
  ⟨by decide, by decide,
    find_paths_with_max_steps_mono chainGraph (by decide) 1 4 4 5 (by decide)
      [1, 2, 3, 4] (by decide)⟩

/-- C6: inserting the same edge twice yields the same graph as inserting
it once. -/
theorem add_edge_idempotent [DecidableEq T] (g : Graph T) (x y : T) :
    (g.add_edge x y).add_edge x y = g.add_edge x y := by
  have hself : ∀ (al : List (T × List T)) (a b : T),
      alInsert (alInsert al a b) a b = alInsert al a b := by
    intro al a b
    refine alInsert_of_mem (alInsert al a b) a b _ (lookupAL_alInsert_self al a b) ?_
    exact mem_hsInsert.mpr (Or.inl rfl)
  unfold Graph.add_edge
  rcases hd : g.is_directed with _ | _
  · simp only [Bool.false_eq_true, if_false, Graph.mk.injEq, true_and]
    have h1 : alInsert (alInsert (alInsert g.adjacency_list x y) y x) x y =
        alInsert (alInsert g.adjacency_list x y) y x := by
      by_cases hxy : x = y
      · subst hxy
        exact hself _ x x
      · have hlk : lookupAL (alInsert (alInsert g.adjacency_list x y) y x) x =
            some (hsInsert ((lookupAL g.adjacency_list x).getD []) y) := by
          rw [lookupAL_alInsert_ne _ x hxy, lookupAL_alInsert_self]
        exact alInsert_of_mem _ x y _ hlk (mem_hsInsert.mpr (Or.inl rfl))
    rw [h1]
    refine alInsert_of_mem _ y x _ (lookupAL_alInsert_self _ y x) ?_
    exact mem_hsInsert.mpr (Or.inl rfl)
  · simp only [if_true, Graph.mk.injEq, true_and]
    exact hself _ x y

theorem add_edge_idempotent_witness :
    (chainGraph.add_edge 1 2).add_edge 1 2 = chainGraph.add_edge 1 2 :=
  add_edge_idempotent chainGraph 1 2

/-- C7: in a graph constructed undirected, after any sequence of
`add_edge` calls the adjacency relation is symmetric. -/
theorem undirected_edge_symm [DecidableEq T] (es : List (T × T)) (u v : T) :
    ((Graph.new (some false) : Graph T).add_edges es).edgeB u v =
      ((Graph.new (some false) : Graph T).add_edges es).edgeB v u :=
  Graph.edgeB_symm_of_add_edges es (Graph.new (some false)) rfl
    (fun _ _ => rfl) u v

theorem undirected_edge_symm_witness :
    ((Graph.new (some false) : Graph Nat).add_edges [(1, 2), (2, 3)]).edgeB 1 2 =
      ((Graph.new (some false) : Graph Nat).add_edges [(1, 2), (2, 3)]).edgeB 2 1 :=
  undirected_edge_symm [(1, 2), (2, 3)] 1 2

/-- C8: in a directed graph, `add_edge x y` makes `y` a member of `x`'s
neighbour set (creating `x`'s entry if absent), and the only adjacency
entry it can create is `x`'s: afterwards `z` has an entry iff it had one
before or `z = x`. -/
theorem add_edge_directed_only_source [DecidableEq T] (g : Graph T)
    (hd : g.is_directed = true) (x y : T) :
    (g.add_edge x y).edgeB x y = true ∧
      ∀ z, (g.add_edge x y).hasKey z = (g.hasKey z || decide (z = x)) := by
  constructor
  · rw [Graph.edgeB_add_edge, if_pos hd]
    simp
  · intro z
    rw [Graph.hasKey_add_edge, if_pos hd]

theorem add_edge_directed_only_source_witness :
    (Graph.new (some true) : Graph Nat).is_directed = true ∧
    (((Graph.new (some true) : Graph Nat).add_edge 1 2).edgeB 1 2 = true ∧
      ∀ z, ((Graph.new (some true) : Graph Nat).add_edge 1 2).hasKey z =
        ((Graph.new (some true) : Graph Nat).hasKey z || decide (z = 1))) :=
  ⟨rfl, add_edge_directed_only_source (Graph.new (some true)) rfl 1 2⟩

/-- C9 (counterexample): on the empty graph, `find_all_paths 0 0` returns
the path `[0]` of length 1, which exceeds the number of distinct nodes of
the graph (0) — the claimed bound must also count the start node. -/
theorem find_all_paths_length_exceeds_node_count :
    [0] ∈ (Graph.new none : Graph Nat).find_all_paths 0 0 ∧
      ¬(([0] : List Nat).length ≤
        (Graph.new none : Graph Nat).allNodes.dedup.length) := by
  decide

/-- C9 (amended): every path returned by `find_all_paths` is bounded in
length by the number of distinct nodes of the graph together with the
start node (which equals the number of distinct nodes whenever the start
occurs in the graph); termination itself is witnessed by the total model,
whose fuel `|allNodes| + 1` is proved sufficient. -/
theorem find_all_paths_length_bound [DecidableEq T] (g : Graph T)
    (hWF : g.WF) (s e : T) (r : List T) (hr : r ∈ g.find_all_paths s e) :
    r.length ≤ ((s :: g.allNodes).dedup).length :=
  Graph.isSimplePath_length_le ((Graph.mem_find_all_paths hWF).mp hr)

theorem find_all_paths_length_bound_witness :
    chainGraph.WF ∧ ([1, 2, 3, 4] ∈ chainGraph.find_all_paths 1 4) ∧
    ([1, 2, 3, 4] : List Nat).length ≤
      ((1 :: chainGraph.allNodes).dedup).length :=
  ⟨by decide, by decide,
    find_all_paths_length_bound chainGraph (by decide) 1 4 [1, 2, 3, 4]
      (by decide)⟩

/-- C10: once `k` is at least the number of distinct node keys occurring
in the adjacency mapping, the bounded enumeration returns exactly the
same paths as the unbounded one (occurrence for occurrence), so the
bounded variant refines to the unbounded one. -/
theorem find_paths_with_max_steps_refines [DecidableEq T] (g : Graph T)
    (hWF : g.WF) (s e : T) (k : Nat)
    (hk : g.allNodes.dedup.length ≤ k) (r : List T) :
    (g.find_paths_with_max_steps s e k).count r =
      (g.find_all_paths s e).count r := by
  rw [g.find_paths_with_max_steps_count hWF s e k r,
    g.find_all_paths_count hWF s e r]
  by_cases hsp : g.isSimplePath s e r = true
  · have hc : g.isSimplePath s e r = true ∧ (r = [s] ∨ r.length ≤ k) := by
      refine ⟨hsp, ?_⟩
      rcases Graph.isSimplePath_single_or_short hsp with h | h
      · exact Or.inl h
      · exact Or.inr (le_trans h hk)
    rw [if_pos hc, if_pos hsp]
  · rw [if_neg (fun hc => hsp hc.1), if_neg hsp]

theorem find_paths_with_max_steps_refines_witness :
    chainGraph.WF ∧ chainGraph.allNodes.dedup.length ≤ 4 ∧
    (chainGraph.find_paths_with_max_steps 1 4 4).count [1, 2, 3, 4] =
      (chainGraph.find_all_paths 1 4).count [1, 2, 3, 4] :=
  ⟨by decide, by decide,
    find_paths_with_max_steps_refines chainGraph (by decide) 1 4 4 (by decide)
      [1, 2, 3, 4]⟩

end SSGraph
